import Mathlib

/-!
Verification of the micrograd-style scalar autograd engine (the JavaScript
`Value` class of `value.js`, reproduced in `src/animations/README.md`).

Modelling choices (shallow embedding):
* JS objects live on a heap and are identified by reference.  We model the
  heap as an arena `Store := List Value`; a node reference is its index.
  Every operation allocates its output (and any promoted raw-number
  operand) at the end of the arena, so an operand's index is always
  strictly smaller than its consumer's index — the arena form of the
  source's DAG invariant (`WF` below).
* JS numbers are IEEE doubles; every claim under verification only
  exercises arithmetic (`+`, `*`, small literals) that is exact in
  doubles, so we use `ℚ`.  The transcendental routines `Math.pow` and
  `Math.exp` are taken as parameters (`mpow`, `mexp`) of the operations
  that call them.
* Each node's `_backward` closure captures its operand references plus,
  for `pow`, the exponent and, for `tanh`, the forward value `t`; it reads
  the mutable fields at call time.  We model the closure by the `Rule`
  datum stored in the node and the dispatcher `runNode`.
* `_prev = new Set(children)` deduplicates by reference keeping insertion
  order; `jsSet` reproduces that.  The constructor's default no-op
  `_backward` is immediately overwritten by the operation, so the
  operations below build the node with its rule directly.
-/

/-- The backward rule captured by a node's `_backward` closure: which
operation built the node and which operand indices the closure closes
over (`pow` also captures the exponent, `tanh` the forward value `t`). -/
inductive Rule where
  | none : Rule
  | add (a b : Nat) : Rule
  | mul (a b : Nat) : Rule
  | pow (a : Nat) (p : ℚ) : Rule
  | relu (a : Nat) : Rule
  | tanh (a : Nat) (t : ℚ) : Rule
  | exp (a : Nat) : Rule
deriving DecidableEq, Repr, Inhabited

/-- One JS `Value` object.  `prev` models `_prev`, `op` models `_op`,
`rule` models the `_backward` closure.  The visualization-only random
`id` field is not modelled (object identity is the arena index). -/
structure Value where
  data : ℚ
  grad : ℚ
  prev : List Nat
  op : String
  label : String
  rule : Rule
deriving DecidableEq, Repr, Inhabited

/-- The heap of allocated `Value` objects; a node reference is an index. -/
abbrev Store := List Value

/-- Dereference a node (total, with a default dummy for dangling indices). -/
def getN (s : Store) (i : Nat) : Value := s.getD i default

/-- Update the node at index `i` (identity when `i` is out of range). -/
def updN : Store → Nat → (Value → Value) → Store
  | [], _, _ => []
  | n :: t, 0, f => f n :: t
  | n :: t, i + 1, f => n :: updN t i f

/-- `node.grad = g`. -/
def setGrad (s : Store) (i : Nat) (g : ℚ) : Store :=
  updN s i fun n => { n with grad := g }

/-- `node.grad += d`. -/
def addGrad (s : Store) (i : Nat) (d : ℚ) : Store :=
  updN s i fun n => { n with grad := n.grad + d }

/-- `new Set(children)`: deduplicate keeping first-insertion order. -/
def jsSet (l : List Nat) : List Nat :=
  l.foldl (fun acc x => if x ∈ acc then acc else acc ++ [x]) []

/-- Allocate a node at the end of the arena, returning its reference. -/
def alloc (s : Store) (n : Value) : Store × Nat := (s ++ [n], s.length)

/-- The `Value` constructor: `new Value(data, children, op, label)`;
`grad = 0`, `_prev = new Set(children)`, no-op `_backward`. -/
def mkValue (data : ℚ) (children : List Nat) (op label : String) : Value :=
  { data := data, grad := 0, prev := jsSet children, op := op,
    label := label, rule := Rule.none }

/-- A JS argument to a binary operation: a raw number or a `Value`. -/
inductive JSArg where
  | num (q : ℚ) : JSArg
  | val (i : Nat) : JSArg
deriving DecidableEq, Repr

/-- `other instanceof Value ? other : new Value(other)`. -/
def coerceArg (s : Store) (x : JSArg) : Store × Nat :=
  match x with
  | JSArg.val i => (s, i)
  | JSArg.num q => alloc s (mkValue q [] "" "")

/-- The error taxonomy of the engine (spec §7): `pow` throws
`Error('only supporting number powers for now')` on a non-number
exponent, named `UnsupportedExponent` by the spec. -/
inductive Err where
  | unsupportedExponent : Err
deriving DecidableEq, Repr

namespace Value

/-- `add(other)`: forward `this.data + other.data`, children
`[this, other]`, op `'+'`; the closure adds `1.0 * out.grad` to each
operand's `grad`. -/
def add (s : Store) (this : Nat) (other : JSArg) : Store × Nat :=
  let c := coerceArg s other
  let s1 := c.1
  let o := c.2
  alloc s1
    { data := (getN s1 this).data + (getN s1 o).data, grad := 0,
      prev := jsSet [this, o], op := "+", label := "",
      rule := Rule.add this o }

/-- `mul(other)`: forward `this.data * other.data`; the closure adds
`other.data * out.grad` to `this.grad` and `this.data * out.grad` to
`other.grad`. -/
def mul (s : Store) (this : Nat) (other : JSArg) : Store × Nat :=
  let c := coerceArg s other
  let s1 := c.1
  let o := c.2
  alloc s1
    { data := (getN s1 this).data * (getN s1 o).data, grad := 0,
      prev := jsSet [this, o], op := "*", label := "",
      rule := Rule.mul this o }

/-- The successful branch of `pow` (the exponent is a number `p`);
forward `Math.pow(this.data, p)`, modelled by the parameter `mpow`. -/
def powNum (mpow : ℚ → ℚ → ℚ) (s : Store) (this : Nat) (p : ℚ) :
    Store × Nat :=
  alloc s
    { data := mpow (getN s this).data p, grad := 0,
      prev := jsSet [this], op := "**" ++ toString p, label := "",
      rule := Rule.pow this p }

/-- `pow(other)`: throws unless the exponent is a raw number —
`if (typeof other !== 'number') throw ...` — before any node is
created; otherwise behaves as `powNum`. -/
def pow (mpow : ℚ → ℚ → ℚ) (s : Store) (this : Nat) (other : JSArg) :
    Except Err (Store × Nat) :=
  match other with
  | JSArg.val _ => Except.error Err.unsupportedExponent
  | JSArg.num p => Except.ok (powNum mpow s this p)

/-- `relu()`: forward `this.data < 0 ? 0 : this.data`. -/
def relu (s : Store) (this : Nat) : Store × Nat :=
  alloc s
    { data := if (getN s this).data < 0 then 0 else (getN s this).data,
      grad := 0, prev := jsSet [this], op := "ReLU", label := "",
      rule := Rule.relu this }

/-- `tanh()`: forward `t = (e^{2x}-1)/(e^{2x}+1)` with `Math.exp`
modelled by `mexp`; the closure captures `t`. -/
def tanh (mexp : ℚ → ℚ) (s : Store) (this : Nat) : Store × Nat :=
  let x := (getN s this).data
  let t := (mexp (2 * x) - 1) / (mexp (2 * x) + 1)
  alloc s
    { data := t, grad := 0, prev := jsSet [this], op := "tanh",
      label := "", rule := Rule.tanh this t }

/-- `exp()`: forward `Math.exp(this.data)`. -/
def exp (mexp : ℚ → ℚ) (s : Store) (this : Nat) : Store × Nat :=
  alloc s
    { data := mexp (getN s this).data, grad := 0, prev := jsSet [this],
      op := "exp", label := "", rule := Rule.exp this }

/-- `neg()` is `this.mul(-1)` (the raw `-1` is promoted to a leaf). -/
def neg (s : Store) (this : Nat) : Store × Nat :=
  mul s this (JSArg.num (-1))

/-- `sub(other)` is `this.add((promoted other).neg())`. -/
def sub (s : Store) (this : Nat) (other : JSArg) : Store × Nat :=
  let c := coerceArg s other
  let n := neg c.1 c.2
  add n.1 this (JSArg.val n.2)

/-- `div(other)` is `this.mul((promoted other).pow(-1))`; the exponent
`-1` is a number, so the inner `pow` cannot throw. -/
def div (mpow : ℚ → ℚ → ℚ) (s : Store) (this : Nat) (other : JSArg) :
    Store × Nat :=
  let c := coerceArg s other
  let p := powNum mpow c.1 c.2 (-1)
  mul p.1 this (JSArg.val p.2)

end Value

/-- Run one node's `_backward` closure: dispatch on the captured rule,
reading the mutable fields at call time and accumulating (`+=`) into the
operands' `grad` fields, in the source's statement order. -/
def runNode (mpow : ℚ → ℚ → ℚ) (s : Store) (o : Nat) : Store :=
  match (getN s o).rule with
  | Rule.none => s
  | Rule.add a b =>
      let s1 := addGrad s a (1 * (getN s o).grad)
      addGrad s1 b (1 * (getN s1 o).grad)
  | Rule.mul a b =>
      let s1 := addGrad s a ((getN s b).data * (getN s o).grad)
      addGrad s1 b ((getN s1 a).data * (getN s1 o).grad)
  | Rule.pow a p =>
      addGrad s a (p * mpow (getN s a).data (p - 1) * (getN s o).grad)
  | Rule.relu a =>
      addGrad s a ((if 0 < (getN s o).data then (1 : ℚ) else 0) *
        (getN s o).grad)
  | Rule.tanh a t => addGrad s a ((1 - t * t) * (getN s o).grad)
  | Rule.exp a => addGrad s a ((getN s o).data * (getN s o).grad)

/-- The intermediate state of `buildTopo`: the `visited` set and the
`topo` list, both in insertion order. -/
abbrev TState := List Nat × List Nat

/-- `buildTopo(v)`: if unvisited, mark visited, recurse into the
operands (the `for (const child of v._prev)` loop is the fold), then
append `v` to the topological order.  The source recurses without a
bound; under the arena invariant (operands have smaller index) recursion
depth is at most `v + 1`, which is the fuel `backward` supplies. -/
def dfsN (s : Store) : Nat → Nat → TState → TState
  | 0, _, st => st
  | f + 1, v, st =>
      if v ∈ st.1 then st
      else
        let st1 :=
          (getN s v).prev.foldl (fun acc c => dfsN s f c acc)
            (st.1 ++ [v], st.2)
        (st1.1, st1.2 ++ [v])

/-- The topological order `backward` builds in its first step. -/
def buildTopo (s : Store) (root : Nat) : List Nat :=
  (dfsN s (root + 1) root ([], [])).2

/-- The walk of step 3: run the `_backward` closures over the given list
in order (the caller passes the reversed topological order). -/
def walkL (mpow : ℚ → ℚ → ℚ) : Store → List Nat → Store
  | s, [] => s
  | s, v :: r => walkL mpow (runNode mpow s v) r

/-- `backward()`: build the topological order, seed `this.grad = 1`,
then run every `_backward` from the end of the order to its start. -/
def backward (mpow : ℚ → ℚ → ℚ) (s : Store) (root : Nat) : Store :=
  walkL mpow (setGrad s root 1) (buildTopo s root).reverse

/-- The intermediate state of `getNodes`: the `nodes` and `edges` sets.
JS `Set` never identifies two distinct array objects, so `edges` is a
plain list of `(child, consumer)` pairs in insertion order. -/
abbrev GState := List Nat × List (Nat × Nat)

/-- `getNodes`'s `build(v)`: if unvisited, add `v` to `nodes`, then for
each operand record the edge `(child, v)` and recurse. -/
def buildN (s : Store) : Nat → Nat → GState → GState
  | 0, _, st => st
  | f + 1, v, st =>
      if v ∈ st.1 then st
      else
        (getN s v).prev.foldl
          (fun acc c => buildN s f c (acc.1, acc.2 ++ [(c, v)]))
          (st.1 ++ [v], st.2)

/-- `getNodes()`: the nodes and operand→consumer edges reachable from
`this`. -/
def getNodes (s : Store) (root : Nat) : GState :=
  buildN s (root + 1) root ([], [])

/-- `zeroGrad()`: `getNodes().nodes.forEach(node => node.grad = 0)`. -/
def zeroGrad (s : Store) (root : Nat) : Store :=
  (getNodes s root).1.foldl (fun t i => setGrad t i 0) s

/-- `createValue(data, label)` = `new Value(data, [], '', label)`. -/
def createValue (s : Store) (q : ℚ) (label : String) : Store × Nat :=
  alloc s (mkValue q [] "" label)

/-- `label = ...` assignment (diagnostic only). -/
def setLabel (s : Store) (i : Nat) (lab : String) : Store :=
  updN s i fun n => { n with label := lab }

/-- Reachability through operand (`_prev`) links, starting at `v`
(`Reach s v x` means `x` is `v` itself or a transitive operand). -/
inductive Reach (s : Store) : Nat → Nat → Prop where
  | refl (v : Nat) : Reach s v v
  | step {v w c : Nat} : Reach s v w → c ∈ (getN s w).prev → Reach s v c

/-- The operand indices a node's `_backward` closure writes to. -/
def ropsOf : Rule → List Nat
  | Rule.none => []
  | Rule.add a b => [a, b]
  | Rule.mul a b => [a, b]
  | Rule.pow a _ => [a]
  | Rule.relu a => [a]
  | Rule.tanh a _ => [a]
  | Rule.exp a => [a]

/-- The arena well-formedness invariant maintained by every constructor
of the engine: a node's operands — both in `_prev` and as captured by
its `_backward` closure — were allocated strictly before it. -/
def WF (s : Store) : Prop :=
  ∀ i < s.length,
    (∀ j ∈ (getN s i).prev, j < i) ∧ (∀ j ∈ ropsOf (getN s i).rule, j < i)

instance : DecidablePred WF := fun s =>
  Nat.decidableBallLT s.length fun i _ =>
    (∀ j ∈ (getN s i).prev, j < i) ∧ (∀ j ∈ ropsOf (getN s i).rule, j < i)

/-- `Examples.complex`: `a=2, b=-3, c=10, f=-2; e=a*b; d=e+c; L=d*f`
with its label assignments.  Node indices: a=0, b=1, c=2, f=3, e=4,
d=5, L=6. -/
def exampleComplex : Store :=
  let sa := createValue [] 2 "a"
  let sb := createValue sa.1 (-3) "b"
  let sc := createValue sb.1 10 "c"
  let sf := createValue sc.1 (-2) "f"
  let se := Value.mul sf.1 sa.2 (JSArg.val sb.2)
  let se' := setLabel se.1 se.2 "e"
  let sd := Value.add se' se.2 (JSArg.val sc.2)
  let sd' := setLabel sd.1 sd.2 "d"
  let sL := Value.mul sd' sd.2 (JSArg.val sf.2)
  setLabel sL.1 sL.2 "L"

/-- The operand-closure/ordering invariant of a topological list: at any
split, a node's direct operands all occur strictly before it. -/
def Closed (s : Store) (t : List Nat) : Prop :=
  ∀ l1 x l2, t = l1 ++ x :: l2 → ∀ u ∈ (getN s x).prev, u ∈ l1

/-- Invariant carried by `buildTopo`'s DFS: the emitted `topo` list only
holds visited nodes, holds each at most once, and is operand-closed with
operands strictly earlier. -/
def TopoInv (s : Store) (st : TState) : Prop :=
  (∀ x ∈ st.2, x ∈ st.1) ∧ st.2.Nodup ∧ Closed s st.2

/-- Pre-condition of a DFS call on node `v`: every visited node is
either fully processed (in `topo`) or a strictly larger in-progress
ancestor. -/
def BoundP (v : Nat) (st : TState) : Prop :=
  ∀ x ∈ st.1, x ∈ st.2 ∨ v < x

/-- The same for the operand loop, whose elements are all below `b`. -/
def BoundL (b : Nat) (st : TState) : Prop :=
  ∀ x ∈ st.1, x ∈ st.2 ∨ b ≤ x

/-- Post-condition of a DFS call on `v`: visited and topo grow by the
same set of fresh nodes, all reachable from `v`, and `v` ends up
processed. -/
def PostN (s : Store) (v : Nat) (st st' : TState) : Prop :=
  ∃ dv dt, st'.1 = st.1 ++ dv ∧ st'.2 = st.2 ++ dt ∧
    (∀ x, x ∈ dv ↔ x ∈ dt) ∧ (∀ x ∈ dv, x ∉ st.1) ∧
    (∀ x ∈ dt, Reach s v x) ∧ v ∈ st'.2

/-- Post-condition of the operand loop over `l`. -/
def PostL (s : Store) (l : List Nat) (st st' : TState) : Prop :=
  ∃ dv dt, st'.1 = st.1 ++ dv ∧ st'.2 = st.2 ++ dt ∧
    (∀ x, x ∈ dv ↔ x ∈ dt) ∧ (∀ x ∈ dv, x ∉ st.1) ∧
    (∀ x ∈ dt, ∃ c ∈ l, Reach s c x) ∧ ∀ c ∈ l, c ∈ st'.2

/-- Post-condition of a `build(v)` call: nodes grow by fresh reachable
nodes, `v` is recorded, every newly recorded node has all its operands
recorded with their edges, every new edge is a real operand edge of a
recorded node, and no duplicates are introduced. -/
def GPost (s : Store) (v : Nat) (st st' : GState) : Prop :=
  ∃ dn de, st'.1 = st.1 ++ dn ∧ st'.2 = st.2 ++ de ∧
    (∀ x ∈ dn, x ∉ st.1) ∧ (∀ x ∈ dn, Reach s v x) ∧ v ∈ st'.1 ∧
    (∀ x ∈ dn, ∀ c ∈ (getN s x).prev, c ∈ st'.1 ∧ (c, x) ∈ st'.2) ∧
    (∀ e ∈ de, e.1 ∈ (getN s e.2).prev ∧ e.2 ∈ st'.1) ∧
    (st.1.Nodup → st'.1.Nodup)

/-- The node record `add` allocates on two existing operands. -/
def addNode (s : Store) (a b : Nat) : Value :=
  { data := (getN s a).data + (getN s b).data, grad := 0,
    prev := jsSet [a, b], op := "+", label := "", rule := Rule.add a b }

/-- A concrete stand-in for `Math.pow` (none of the add/mul graphs below
ever invoke it). -/
def mpow0 : ℚ → ℚ → ℚ := fun _ _ => 0

/-- Two fresh leaves, data 5 and 7. -/
def twoLeaves : Store := [mkValue 5 [] "" "", mkValue 7 [] "" ""]

/-- One fresh leaf, data 3. -/
def oneLeaf : Store := [mkValue 3 [] "" ""]

/-- The chain `x = 2; y = x + 3; z = y + 5` (promoted number leaves at
indices 1 and 3; `y` at 2, root `z` at 4). -/
def chainStore : Store :=
  (Value.add (Value.add (createValue [] 2 "x").1 0 (JSArg.num 3)).1 2
    (JSArg.num 5)).1

/-! ### Basic arena lemmas -/

theorem length_updN (s : Store) (i : Nat) (f : Value → Value) :
    (updN s i f).length = s.length := by
  induction s generalizing i with
  | nil => rfl
  | cons n t ih =>
      cases i with
      | zero => rfl
      | succ j => simpa [updN] using ih j

theorem updN_oob (s : Store) (i : Nat) (f : Value → Value)
    (h : s.length ≤ i) : updN s i f = s := by
  induction s generalizing i with
  | nil => rfl
  | cons n t ih =>
      cases i with
      | zero => simp at h
      | succ m => simp [updN, ih m (by simpa using h)]

theorem getN_updN_ne (s : Store) (i j : Nat) (f : Value → Value)
    (h : j ≠ i) : getN (updN s i f) j = getN s j := by
  induction s generalizing i j with
  | nil => rfl
  | cons n t ih =>
      cases i with
      | zero =>
          cases j with
          | zero => exact absurd rfl h
          | succ k => simp [updN, getN]
      | succ m =>
          cases j with
          | zero => simp [updN, getN]
          | succ k =>
              simp only [updN, getN, List.getD_cons_succ]
              exact ih m k fun hk => h (by simp [hk])

theorem getN_updN_self (s : Store) (i : Nat) (f : Value → Value)
    (h : i < s.length) : getN (updN s i f) i = f (getN s i) := by
  induction s generalizing i with
  | nil => simp at h
  | cons n t ih =>
      cases i with
      | zero => simp [updN, getN]
      | succ m =>
          simp only [updN, getN, List.getD_cons_succ]
          exact ih m (by simpa using h)

theorem getN_append_lt (s t : Store) (j : Nat) (h : j < s.length) :
    getN (s ++ t) j = getN s j := by
  induction s generalizing j with
  | nil => simp at h
  | cons n r ih =>
      cases j with
      | zero => simp [getN]
      | succ k =>
          simp only [List.cons_append, getN, List.getD_cons_succ]
          exact ih k (by simpa using h)

theorem getN_append_self (s : Store) (n : Value) :
    getN (s ++ [n]) s.length = n := by
  induction s with
  | nil => rfl
  | cons m r ih =>
      simp only [List.cons_append, getN, List.length_cons,
        List.getD_cons_succ]
      exact ih

theorem getN_oob (s : Store) (j : Nat) (h : s.length ≤ j) :
    getN s j = default := by
  induction s generalizing j with
  | nil => cases j <;> rfl
  | cons n r ih =>
      cases j with
      | zero => simp at h
      | succ k =>
          simp only [getN, List.getD_cons_succ]
          exact ih k (by simpa using h)

theorem length_setGrad (s : Store) (i : Nat) (g : ℚ) :
    (setGrad s i g).length = s.length := length_updN ..

theorem length_addGrad (s : Store) (i : Nat) (d : ℚ) :
    (addGrad s i d).length = s.length := length_updN ..

theorem getN_setGrad_ne (s : Store) (i j : Nat) (g : ℚ) (h : j ≠ i) :
    getN (setGrad s i g) j = getN s j := getN_updN_ne s i j _ h

theorem getN_addGrad_ne (s : Store) (i j : Nat) (d : ℚ) (h : j ≠ i) :
    getN (addGrad s i d) j = getN s j := getN_updN_ne s i j _ h

theorem grad_setGrad_self (s : Store) (i : Nat) (g : ℚ)
    (h : i < s.length) : (getN (setGrad s i g) i).grad = g := by
  simp [setGrad, getN_updN_self s i _ h]

theorem grad_addGrad_self (s : Store) (i : Nat) (d : ℚ)
    (h : i < s.length) :
    (getN (addGrad s i d) i).grad = (getN s i).grad + d := by
  simp [addGrad, getN_updN_self s i _ h]

/-- `updN` touches only the `grad` field when `f` touches only `grad`:
packaged for `setGrad`. -/
theorem getN_setGrad_fields (s : Store) (i j : Nat) (g : ℚ) :
    (getN (setGrad s i g) j).data = (getN s j).data ∧
    (getN (setGrad s i g) j).prev = (getN s j).prev ∧
    (getN (setGrad s i g) j).op = (getN s j).op ∧
    (getN (setGrad s i g) j).label = (getN s j).label ∧
    (getN (setGrad s i g) j).rule = (getN s j).rule := by
  by_cases hij : j = i
  · subst hij
    by_cases hlen : j < s.length
    · simp [setGrad, getN_updN_self s j _ hlen]
    · rw [setGrad, updN_oob s j _ (by omega)]
      exact ⟨rfl, rfl, rfl, rfl, rfl⟩
  · rw [getN_setGrad_ne s i j g hij]
    exact ⟨rfl, rfl, rfl, rfl, rfl⟩

theorem getN_addGrad_fields (s : Store) (i j : Nat) (d : ℚ) :
    (getN (addGrad s i d) j).data = (getN s j).data ∧
    (getN (addGrad s i d) j).prev = (getN s j).prev ∧
    (getN (addGrad s i d) j).op = (getN s j).op ∧
    (getN (addGrad s i d) j).label = (getN s j).label ∧
    (getN (addGrad s i d) j).rule = (getN s j).rule := by
  by_cases hij : j = i
  · subst hij
    by_cases hlen : j < s.length
    · simp [addGrad, getN_updN_self s j _ hlen]
    · rw [addGrad, updN_oob s j _ (by omega)]
      exact ⟨rfl, rfl, rfl, rfl, rfl⟩
  · rw [getN_addGrad_ne s i j d hij]
    exact ⟨rfl, rfl, rfl, rfl, rfl⟩

/-! ### `runNode` and `walkL` frame lemmas: a `_backward` closure only
writes `grad` fields, and only at its captured operand indices. -/

theorem length_runNode (mpow : ℚ → ℚ → ℚ) (s : Store) (o : Nat) :
    (runNode mpow s o).length = s.length := by
  unfold runNode
  cases (getN s o).rule <;>
    simp [length_addGrad]

theorem runNode_fields (mpow : ℚ → ℚ → ℚ) (s : Store) (o j : Nat) :
    (getN (runNode mpow s o) j).data = (getN s j).data ∧
    (getN (runNode mpow s o) j).prev = (getN s j).prev ∧
    (getN (runNode mpow s o) j).op = (getN s j).op ∧
    (getN (runNode mpow s o) j).label = (getN s j).label ∧
    (getN (runNode mpow s o) j).rule = (getN s j).rule := by
  unfold runNode
  cases (getN s o).rule with
  | none => exact ⟨rfl, rfl, rfl, rfl, rfl⟩
  | add a b =>
      have h1 := getN_addGrad_fields s a j (1 * (getN s o).grad)
      have h2 := getN_addGrad_fields (addGrad s a (1 * (getN s o).grad)) b j
        (1 * (getN (addGrad s a (1 * (getN s o).grad)) o).grad)
      simp only at h1 h2 ⊢
      exact ⟨by rw [h2.1, h1.1], by rw [h2.2.1, h1.2.1],
        by rw [h2.2.2.1, h1.2.2.1], by rw [h2.2.2.2.1, h1.2.2.2.1],
        by rw [h2.2.2.2.2, h1.2.2.2.2]⟩
  | mul a b =>
      have h1 := getN_addGrad_fields s a j ((getN s b).data * (getN s o).grad)
      have h2 := getN_addGrad_fields
        (addGrad s a ((getN s b).data * (getN s o).grad)) b j
        ((getN (addGrad s a ((getN s b).data * (getN s o).grad)) a).data *
          (getN (addGrad s a ((getN s b).data * (getN s o).grad)) o).grad)
      simp only at h1 h2 ⊢
      exact ⟨by rw [h2.1, h1.1], by rw [h2.2.1, h1.2.1],
        by rw [h2.2.2.1, h1.2.2.1],
        by rw [h2.2.2.2.1, h1.2.2.2.1],
        by rw [h2.2.2.2.2, h1.2.2.2.2]⟩
  | pow a p => exact getN_addGrad_fields ..
  | relu a => exact getN_addGrad_fields ..
  | tanh a t => exact getN_addGrad_fields ..
  | exp a => exact getN_addGrad_fields ..

theorem runNode_grad_notin (mpow : ℚ → ℚ → ℚ) (s : Store) (o j : Nat)
    (h : j ∉ ropsOf (getN s o).rule) :
    (getN (runNode mpow s o) j).grad = (getN s j).grad := by
  unfold runNode
  cases hr : (getN s o).rule with
  | none => rfl
  | add a b =>
      rw [hr] at h
      simp [ropsOf] at h
      rw [getN_addGrad_ne _ _ _ _ h.2, getN_addGrad_ne _ _ _ _ h.1]
  | mul a b =>
      rw [hr] at h
      simp [ropsOf] at h
      rw [getN_addGrad_ne _ _ _ _ h.2, getN_addGrad_ne _ _ _ _ h.1]
  | pow a p =>
      rw [hr] at h
      simp [ropsOf] at h
      rw [getN_addGrad_ne _ _ _ _ h]
  | relu a =>
      rw [hr] at h
      simp [ropsOf] at h
      rw [getN_addGrad_ne _ _ _ _ h]
  | tanh a t =>
      rw [hr] at h
      simp [ropsOf] at h
      rw [getN_addGrad_ne _ _ _ _ h]
  | exp a =>
      rw [hr] at h
      simp [ropsOf] at h
      rw [getN_addGrad_ne _ _ _ _ h]

theorem length_walkL (mpow : ℚ → ℚ → ℚ) (s : Store) (l : List Nat) :
    (walkL mpow s l).length = s.length := by
  induction l generalizing s with
  | nil => rfl
  | cons v r ih => simp [walkL, ih, length_runNode]

theorem walkL_fields (mpow : ℚ → ℚ → ℚ) (s : Store) (l : List Nat)
    (j : Nat) :
    (getN (walkL mpow s l) j).data = (getN s j).data ∧
    (getN (walkL mpow s l) j).prev = (getN s j).prev ∧
    (getN (walkL mpow s l) j).op = (getN s j).op ∧
    (getN (walkL mpow s l) j).label = (getN s j).label ∧
    (getN (walkL mpow s l) j).rule = (getN s j).rule := by
  induction l generalizing s with
  | nil => exact ⟨rfl, rfl, rfl, rfl, rfl⟩
  | cons v r ih =>
      have h1 := runNode_fields mpow s v j
      have h2 := ih (runNode mpow s v)
      simp only [walkL]
      exact ⟨by rw [h2.1, h1.1], by rw [h2.2.1, h1.2.1],
        by rw [h2.2.2.1, h1.2.2.1], by rw [h2.2.2.2.1, h1.2.2.2.1],
        by rw [h2.2.2.2.2, h1.2.2.2.2]⟩

theorem walkL_grad_notin (mpow : ℚ → ℚ → ℚ) (s : Store) (l : List Nat)
    (j : Nat) (h : ∀ v ∈ l, j ∉ ropsOf (getN s v).rule) :
    (getN (walkL mpow s l) j).grad = (getN s j).grad := by
  induction l generalizing s with
  | nil => rfl
  | cons v r ih =>
      simp only [walkL]
      have hrules : ∀ w, (getN (runNode mpow s v) w).rule = (getN s w).rule :=
        fun w => (runNode_fields mpow s v w).2.2.2.2
      rw [ih (runNode mpow s v) fun w hw => by
        rw [hrules w]; exact h w (List.mem_cons_of_mem _ hw)]
      exact runNode_grad_notin mpow s v j (h v (List.mem_cons_self ..))

/-! ### Reachability and the DFS of `buildTopo` -/

theorem reach_trans {s : Store} {v w x : Nat} (h1 : Reach s v w)
    (h2 : Reach s w x) : Reach s v x := by
  induction h2 with
  | refl => exact h1
  | step _ hc ih => exact Reach.step ih hc

theorem reach_of_prev {s : Store} {v c : Nat}
    (hc : c ∈ (getN s v).prev) : Reach s v c :=
  Reach.step (Reach.refl v) hc

theorem default_prev : (default : Value).prev = [] := rfl

theorem default_rule : (default : Value).rule = Rule.none := rfl

/-- Every node's operand indices are smaller than its own, in unbounded
form (dangling references have no operands). -/
theorem WF.prev_all {s : Store} (h : WF s) :
    ∀ v, ∀ c ∈ (getN s v).prev, c < v := by
  intro v c hc
  by_cases hv : v < s.length
  · exact (h v hv).1 c hc
  · rw [getN_oob s v (by omega), default_prev] at hc
    simp at hc

theorem WF.rops_all {s : Store} (h : WF s) :
    ∀ v, ∀ c ∈ ropsOf (getN s v).rule, c < v := by
  intro v c hc
  by_cases hv : v < s.length
  · exact (h v hv).2 c hc
  · rw [getN_oob s v (by omega), default_rule] at hc
    simp [ropsOf] at hc

theorem reach_le {s : Store}
    (hWF : ∀ v, ∀ c ∈ (getN s v).prev, c < v) {v x : Nat}
    (h : Reach s v x) : x ≤ v := by
  induction h with
  | refl => exact Nat.le_refl _
  | step _ hc ih => have := hWF _ _ hc; omega



theorem closed_nil (s : Store) : Closed s [] := by
  intro l1 x l2 h
  simp at h

theorem append_singleton_cases {α : Type} (t : List α) (v : α)
    (l1 : List α) (x : α) (l2 : List α) (h : t ++ [v] = l1 ++ x :: l2) :
    (l1 = t ∧ x = v ∧ l2 = []) ∨
      ∃ l2', l2 = l2' ++ [v] ∧ t = l1 ++ x :: l2' := by
  rcases List.eq_nil_or_concat l2 with rfl | ⟨l2', y, rfl⟩
  · left
    have hl : t.length = l1.length := by
      have := congrArg List.length h
      simp at this
      omega
    obtain ⟨h1, h2⟩ := List.append_inj h hl
    simp at h2
    exact ⟨h1.symm, h2.symm, rfl⟩
  · right
    have h' : t ++ [v] = (l1 ++ x :: l2') ++ [y] := by
      simpa [List.append_assoc] using h
    have hl : t.length = (l1 ++ x :: l2').length := by
      have := congrArg List.length h'
      simp at this
      simp
      omega
    obtain ⟨h1, h2⟩ := List.append_inj h' hl
    simp at h2
    exact ⟨l2', by rw [h2, List.concat_eq_append], h1⟩

theorem closed_append {s : Store} {t : List Nat} {v : Nat}
    (hc : Closed s t) (hv : ∀ u ∈ (getN s v).prev, u ∈ t) :
    Closed s (t ++ [v]) := by
  intro l1 x l2 heq u hu
  rcases append_singleton_cases t v l1 x l2 heq with
    ⟨h1, h2, _⟩ | ⟨l2', _, h2⟩
  · subst h1; subst h2
    exact hv u hu
  · exact hc l1 x l2' h2 u hu

theorem reach_mem_closed {s : Store} {t : List Nat} {root x : Nat}
    (hc : Closed s t) (hm : root ∈ t) (hr : Reach s root x) : x ∈ t := by
  induction hr with
  | refl => exact hm
  | step _ hcp ih =>
      obtain ⟨l1, l2, heq⟩ := List.append_of_mem ih
      subst heq
      exact List.mem_append_left _ (hc l1 _ l2 rfl _ hcp)



theorem dfs_fold (s : Store) (f : Nat)
    (hN : ∀ v st, v < f → TopoInv s st → BoundP v st →
      PostN s v st (dfsN s f v st) ∧ TopoInv s (dfsN s f v st)) :
    ∀ l st b, (∀ c ∈ l, c < f) → (∀ c ∈ l, c < b) →
      TopoInv s st → BoundL b st →
      PostL s l st (l.foldl (fun acc c => dfsN s f c acc) st) ∧
        TopoInv s (l.foldl (fun acc c => dfsN s f c acc) st) := by
  intro l
  induction l with
  | nil =>
      intro st b _ _ hInv _
      refine ⟨⟨[], [], by simp, by simp, by simp, by simp, by simp,
        by simp⟩, hInv⟩
  | cons c cs ih =>
      intro st b hf hb hInv hB
      have hc : c < f := hf c (List.mem_cons_self ..)
      have hB1 : BoundP c st := fun x hx =>
        (hB x hx).imp_right fun h => Nat.lt_of_lt_of_le
          (hb c (List.mem_cons_self ..)) h
      obtain ⟨⟨dv1, dt1, he1, he2, hiff1, hfr1, hre1, hv1⟩, hInv1⟩ :=
        hN c st hc hInv hB1
      have hB2 : BoundL b (dfsN s f c st) := by
        intro x hx
        rw [he1] at hx
        rcases List.mem_append.mp hx with hx | hx
        · rcases hB x hx with hx' | hx'
          · exact Or.inl (by rw [he2]; exact List.mem_append_left _ hx')
          · exact Or.inr hx'
        · exact Or.inl (by
            rw [he2]
            exact List.mem_append_right _ ((hiff1 x).mp hx))
      obtain ⟨⟨dv2, dt2, hf1, hf2, hiff2, hfr2, hre2, hv2⟩, hInv2⟩ :=
        ih (dfsN s f c st) b
          (fun x hx => hf x (List.mem_cons_of_mem _ hx))
          (fun x hx => hb x (List.mem_cons_of_mem _ hx)) hInv1 hB2
      simp only [List.foldl_cons]
      refine ⟨⟨dv1 ++ dv2, dt1 ++ dt2, ?_, ?_, ?_, ?_, ?_, ?_⟩, hInv2⟩
      · rw [hf1, he1, List.append_assoc]
      · rw [hf2, he2, List.append_assoc]
      · intro x
        simp only [List.mem_append]
        exact or_congr (hiff1 x) (hiff2 x)
      · intro x hx
        rcases List.mem_append.mp hx with hx | hx
        · exact hfr1 x hx
        · intro hmem
          exact hfr2 x hx (by rw [he1]; exact List.mem_append_left _ hmem)
      · intro x hx
        rcases List.mem_append.mp hx with hx | hx
        · exact ⟨c, List.mem_cons_self .., hre1 x hx⟩
        · obtain ⟨c', hc', hr⟩ := hre2 x hx
          exact ⟨c', List.mem_cons_of_mem _ hc', hr⟩
      · intro c' hc'
        rcases List.mem_cons.mp hc' with rfl | hc'
        · rw [hf2]
          exact List.mem_append_left _ hv1
        · exact hv2 c' hc'

theorem dfs_master (s : Store)
    (hWF : ∀ v, ∀ c ∈ (getN s v).prev, c < v) :
    ∀ fuel v st, v < fuel → TopoInv s st → BoundP v st →
      PostN s v st (dfsN s fuel v st) ∧ TopoInv s (dfsN s fuel v st) := by
  intro fuel
  induction fuel with
  | zero => intro v st hv; omega
  | succ f ih =>
      intro v st hv hInv hB
      by_cases hvis : v ∈ st.1
      · have hres : dfsN s (f + 1) v st = st := by
          simp [dfsN, hvis]
        rw [hres]
        refine ⟨⟨[], [], by simp, by simp, by simp, by simp, by simp, ?_⟩,
          hInv⟩
        rcases hB v hvis with h | h
        · exact h
        · omega
      · have hres : dfsN s (f + 1) v st =
            (((getN s v).prev.foldl (fun acc c => dfsN s f c acc)
              (st.1 ++ [v], st.2)).1,
             ((getN s v).prev.foldl (fun acc c => dfsN s f c acc)
              (st.1 ++ [v], st.2)).2 ++ [v]) := by
          simp [dfsN, hvis]
        rw [hres]
        have hInv0 : TopoInv s (st.1 ++ [v], st.2) :=
          ⟨fun x hx => List.mem_append_left _ (hInv.1 x hx), hInv.2.1,
            hInv.2.2⟩
        have hB0 : BoundL v (st.1 ++ [v], st.2) := by
          intro x hx
          rcases List.mem_append.mp hx with hx | hx
          · rcases hB x hx with h | h
            · exact Or.inl h
            · exact Or.inr (Nat.le_of_lt h)
          · simp at hx
            exact Or.inr (Nat.le_of_eq hx.symm)
        obtain ⟨⟨dv1, dt1, he1, he2, hiff1, hfr1, hre1, hall⟩, hInv1⟩ :=
          dfs_fold s f ih (getN s v).prev (st.1 ++ [v], st.2) v
            (fun c hc => by have := hWF v c hc; omega)
            (fun c hc => hWF v c hc) hInv0 hB0
        simp only at he1 he2 hfr1 hall
        refine ⟨⟨v :: dv1, dt1 ++ [v], ?_, ?_, ?_, ?_, ?_, ?_⟩, ?_, ?_, ?_⟩
        · show _ = st.1 ++ (v :: dv1)
          rw [he1]
          simp
        · show _ ++ [v] = st.2 ++ (dt1 ++ [v])
          rw [he2, List.append_assoc]
        · intro x
          simp only [List.mem_cons, List.mem_append, List.mem_singleton,
            List.not_mem_nil, or_false]
          constructor
          · rintro (h | h)
            · exact Or.inr h
            · exact Or.inl ((hiff1 x).mp h)
          · rintro (h | h)
            · exact Or.inr ((hiff1 x).mpr h)
            · exact Or.inl h
        · intro x hx
          rcases List.mem_cons.mp hx with rfl | hx
          · exact hvis
          · intro hmem
            exact hfr1 x hx (List.mem_append_left _ hmem)
        · intro x hx
          rcases List.mem_append.mp hx with hx | hx
          · obtain ⟨c, hc, hr⟩ := hre1 x hx
            exact reach_trans (reach_of_prev hc) hr
          · simp at hx
            subst hx
            exact Reach.refl x
        · show v ∈ _ ++ [v]
          simp
        · show ∀ x ∈ _ ++ [v], _
          intro x hx
          rcases List.mem_append.mp hx with hx | hx
          · exact hInv1.1 x hx
          · simp at hx
            subst hx
            rw [he1]
            exact List.mem_append_left _ (List.mem_append_right _ (by simp))
        · show (_ ++ [v]).Nodup
          rw [List.nodup_append]
          refine ⟨hInv1.2.1, by simp, ?_⟩
          intro x hx
          simp only [List.mem_singleton]
          intro hxv
          subst hxv
          rw [he2] at hx
          rcases List.mem_append.mp hx with hx | hx
          · exact hvis (hInv.1 x hx)
          · exact hfr1 x ((hiff1 x).mpr hx) (List.mem_append_right _ (by simp))
        · exact closed_append hInv1.2.2 hall

theorem reach_src {s : Store} {v u : Nat} (h : Reach s v u) :
    u = v ∨ ∃ c ∈ (getN s v).prev, Reach s c u := by
  induction h with
  | refl => exact Or.inl rfl
  | step _ hc ih =>
      rcases ih with rfl | ⟨c', hc', hr⟩
      · exact Or.inr ⟨_, hc, Reach.refl _⟩
      · exact Or.inr ⟨c', hc', Reach.step hr hc⟩

/-- In an operand-closed list, everything a node transitively depends on
occurs strictly before it. -/
theorem closed_reach_before (s : Store) (t : List Nat) (hc : Closed s t) :
    ∀ n l1 x l2, l1.length ≤ n → t = l1 ++ x :: l2 →
      ∀ u, Reach s x u → u ≠ x → u ∈ l1 := by
  intro n
  induction n with
  | zero =>
      intro l1 x l2 hlen heq u hr hne
      rcases reach_src hr with rfl | ⟨c, hcm, hr'⟩
      · exact absurd rfl hne
      · have := hc l1 x l2 heq c hcm
        have hl1 : l1 = [] := List.eq_nil_of_length_eq_zero (by omega)
        subst hl1
        simp at this
  | succ n ih =>
      intro l1 x l2 hlen heq u hr hne
      rcases reach_src hr with rfl | ⟨c, hcm, hr'⟩
      · exact absurd rfl hne
      · have hcl1 : c ∈ l1 := hc l1 x l2 heq c hcm
        by_cases huc : u = c
        · subst huc
          exact hcl1
        · obtain ⟨la, lb, hsplit⟩ := List.append_of_mem hcl1
          subst hsplit
          have heq' : t = la ++ c :: (lb ++ x :: l2) := by
            rw [heq]
            simp
          have hla : la.length ≤ n := by
            have := congrArg List.length (rfl : la ++ c :: lb = la ++ c :: lb)
            simp only [List.length_append, List.length_cons] at hlen ⊢
            omega
          have := ih la c (lb ++ x :: l2) hla heq' u hr' huc
          exact List.mem_append_left _ this

/-- Full characterisation of `buildTopo`: operand-closed (operands
before consumers), duplicate-free, and its members are exactly the
nodes reachable from the root. -/
theorem buildTopo_spec (s : Store) (root : Nat)
    (hWF : ∀ v, ∀ c ∈ (getN s v).prev, c < v) :
    Closed s (buildTopo s root) ∧ (buildTopo s root).Nodup ∧
      root ∈ buildTopo s root ∧
      (∀ x ∈ buildTopo s root, Reach s root x) ∧
      ∀ x, Reach s root x → x ∈ buildTopo s root := by
  have hInv : TopoInv s ([], []) :=
    ⟨by simp, List.nodup_nil, closed_nil s⟩
  have hB : BoundP root ([], []) := by
    intro x hx
    simp at hx
  obtain ⟨⟨dv, dt, he1, he2, hiff, hfr, hre, hroot⟩, hInv'⟩ :=
    dfs_master s hWF (root + 1) root ([], []) (Nat.lt_succ_self root)
      hInv hB
  simp only at he1 he2
  have htopo : buildTopo s root = dt := by
    simpa [buildTopo] using he2
  refine ⟨?_, ?_, ?_, ?_, ?_⟩
  · rw [htopo]
    have := hInv'.2.2
    rwa [show (dfsN s (root + 1) root ([], [])).2 = dt from by
      simpa using he2] at this
  · rw [htopo]
    have := hInv'.2.1
    rwa [show (dfsN s (root + 1) root ([], [])).2 = dt from by
      simpa using he2] at this
  · rw [htopo]
    rwa [show (dfsN s (root + 1) root ([], [])).2 = dt from by
      simpa using he2] at hroot
  · rw [htopo]
    exact hre
  · intro x hx
    rw [htopo]
    have hcl : Closed s dt := by
      have := hInv'.2.2
      rwa [show (dfsN s (root + 1) root ([], [])).2 = dt from by
        simpa using he2] at this
    have hrootdt : root ∈ dt := by
      rwa [show (dfsN s (root + 1) root ([], [])).2 = dt from by
        simpa using he2] at hroot
    exact reach_mem_closed hcl hrootdt hx

/-- `buildTopo` emits the root last (the outer DFS call appends it after
the operand loop finishes). -/
theorem buildTopo_concat (s : Store) (root : Nat) :
    buildTopo s root =
      ((getN s root).prev.foldl (fun acc c => dfsN s root c acc)
        ([root], [])).2 ++ [root] := by
  simp [buildTopo, dfsN]

/-! ### The DFS of `getNodes` -/



theorem build_fold (s : Store) (f : Nat)
    (hN : ∀ v st, v < f → GPost s v st (buildN s f v st)) :
    ∀ (l : List Nat) (v : Nat) (st : GState),
      (∀ c ∈ l, c < f) → (∀ c ∈ l, c ∈ (getN s v).prev) →
      v ∈ st.1 →
      ∃ dn de,
        (l.foldl (fun acc c => buildN s f c (acc.1, acc.2 ++ [(c, v)]))
          st).1 = st.1 ++ dn ∧
        (l.foldl (fun acc c => buildN s f c (acc.1, acc.2 ++ [(c, v)]))
          st).2 = st.2 ++ de ∧
        (∀ x ∈ dn, x ∉ st.1) ∧ (∀ x ∈ dn, ∃ c ∈ l, Reach s c x) ∧
        (∀ c ∈ l, c ∈ (l.foldl
          (fun acc c => buildN s f c (acc.1, acc.2 ++ [(c, v)])) st).1 ∧
          (c, v) ∈ (l.foldl
            (fun acc c => buildN s f c (acc.1, acc.2 ++ [(c, v)])) st).2) ∧
        (∀ x ∈ dn, ∀ c ∈ (getN s x).prev,
          c ∈ (l.foldl
            (fun acc c => buildN s f c (acc.1, acc.2 ++ [(c, v)])) st).1 ∧
          (c, x) ∈ (l.foldl
            (fun acc c => buildN s f c (acc.1, acc.2 ++ [(c, v)])) st).2) ∧
        (∀ e ∈ de, e.1 ∈ (getN s e.2).prev ∧ e.2 ∈ (l.foldl
          (fun acc c => buildN s f c (acc.1, acc.2 ++ [(c, v)])) st).1) ∧
        (st.1.Nodup → (l.foldl
          (fun acc c => buildN s f c (acc.1, acc.2 ++ [(c, v)])) st).1.Nodup)
    := by
  intro l
  induction l with
  | nil =>
      intro v st _ _ _
      exact ⟨[], [], by simp, by simp, by simp, by simp, by simp, by simp,
        by simp, fun h => h⟩
  | cons c cs ih =>
      intro v st hf hprev hv
      simp only [List.foldl_cons]
      have hc : c < f := hf c (List.mem_cons_self ..)
      obtain ⟨dn1, de1, ha1, ha2, ha3, ha4, ha5, ha6, ha7, ha8⟩ :=
        hN c (st.1, st.2 ++ [(c, v)]) hc
      simp only at ha1 ha2 ha3 ha4 ha5 ha6 ha7 ha8
      obtain ⟨dn2, de2, hb1, hb2, hb3, hb4, hb5, hb6, hb7, hb8⟩ :=
        ih v (buildN s f c (st.1, st.2 ++ [(c, v)]))
          (fun x hx => hf x (List.mem_cons_of_mem _ hx))
          (fun x hx => hprev x (List.mem_cons_of_mem _ hx))
          (by rw [ha1]; exact List.mem_append_left _ hv)
      refine ⟨dn1 ++ dn2, (c, v) :: (de1 ++ de2), ?_, ?_, ?_, ?_, ?_, ?_,
        ?_, ?_⟩
      · rw [hb1, ha1, List.append_assoc]
      · rw [hb2, ha2]
        simp
      · intro x hx
        rcases List.mem_append.mp hx with hx | hx
        · exact ha3 x hx
        · intro hmem
          exact hb3 x hx (by rw [ha1]; exact List.mem_append_left _ hmem)
      · intro x hx
        rcases List.mem_append.mp hx with hx | hx
        · exact ⟨c, List.mem_cons_self .., ha4 x hx⟩
        · obtain ⟨c', hc', hr⟩ := hb4 x hx
          exact ⟨c', List.mem_cons_of_mem _ hc', hr⟩
      · intro c' hc'
        rcases List.mem_cons.mp hc' with rfl | hc'
        · constructor
          · rw [hb1]
            exact List.mem_append_left _ ha5
          · rw [hb2, ha2]
            exact List.mem_append_left _ (List.mem_append_left _
              (List.mem_append_right _ (by simp)))
        · exact hb5 c' hc'
      · intro x hx
        rcases List.mem_append.mp hx with hx | hx
        · intro u hu
          obtain ⟨h1, h2⟩ := ha6 x hx u hu
          constructor
          · rw [hb1]
            exact List.mem_append_left _ h1
          · rw [hb2]
            exact List.mem_append_left _ h2
        · exact hb6 x hx
      · intro e he
        rcases List.mem_cons.mp he with rfl | he
        · refine ⟨hprev c (List.mem_cons_self ..), ?_⟩
          rw [hb1, ha1]
          exact List.mem_append_left _ (List.mem_append_left _ hv)
        · rcases List.mem_append.mp he with he | he
          · obtain ⟨h1, h2⟩ := ha7 e he
            exact ⟨h1, by rw [hb1]; exact List.mem_append_left _ h2⟩
          · exact hb7 e he
      · intro hnd
        exact hb8 (ha8 hnd)

theorem build_master (s : Store)
    (hWF : ∀ v, ∀ c ∈ (getN s v).prev, c < v) :
    ∀ fuel v st, v < fuel → GPost s v st (buildN s fuel v st) := by
  intro fuel
  induction fuel with
  | zero => intro v st hv; omega
  | succ f ih =>
      intro v st hv
      by_cases hvis : v ∈ st.1
      · have hres : buildN s (f + 1) v st = st := by simp [buildN, hvis]
        rw [hres]
        exact ⟨[], [], by simp, by simp, by simp, by simp, hvis, by simp,
          by simp, fun h => h⟩
      · have hres : buildN s (f + 1) v st =
            (getN s v).prev.foldl
              (fun acc c => buildN s f c (acc.1, acc.2 ++ [(c, v)]))
              (st.1 ++ [v], st.2) := by
          simp [buildN, hvis]
        rw [hres]
        obtain ⟨dn, de, h1, h2, h3, h4, h5, h6, h7, h8⟩ :=
          build_fold s f ih (getN s v).prev v (st.1 ++ [v], st.2)
            (fun c hc => by have := hWF v c hc; omega)
            (fun c hc => hc) (by simp)
        simp only at h1 h2 h3 h4 h5 h6 h7 h8
        refine ⟨v :: dn, de, ?_, h2, ?_, ?_, ?_, ?_, h7, ?_⟩
        · rw [h1]
          simp
        · intro x hx
          rcases List.mem_cons.mp hx with rfl | hx
          · exact hvis
          · intro hmem
            exact h3 x hx (List.mem_append_left _ hmem)
        · intro x hx
          rcases List.mem_cons.mp hx with rfl | hx
          · exact Reach.refl x
          · obtain ⟨c, hc, hr⟩ := h4 x hx
            exact reach_trans (reach_of_prev hc) hr
        · rw [h1]
          exact List.mem_append_left _ (List.mem_append_right _ (by simp))
        · intro x hx
          rcases List.mem_cons.mp hx with rfl | hx
          · exact fun c hc => h5 c hc
          · exact h6 x hx
        · intro hnd
          apply h8
          rw [List.nodup_append]
          refine ⟨hnd, by simp, ?_⟩
          intro x hx
          simp only [List.mem_singleton]
          intro hxv
          subst hxv
          exact hvis hx

/-- Full characterisation of `getNodes`: the node list is exactly the
reachable set (each node once), and the edge list is exactly the set of
operand→consumer edges between reachable nodes. -/
theorem getNodes_spec (s : Store) (root : Nat)
    (hWF : ∀ v, ∀ c ∈ (getN s v).prev, c < v) :
    (∀ x, x ∈ (getNodes s root).1 ↔ Reach s root x) ∧
      (getNodes s root).1.Nodup ∧
      ∀ e : Nat × Nat, e ∈ (getNodes s root).2 ↔
        Reach s root e.2 ∧ e.1 ∈ (getN s e.2).prev := by
  obtain ⟨dn, de, h1, h2, h3, h4, h5, h6, h7, h8⟩ :=
    build_master s hWF (root + 1) root ([], []) (Nat.lt_succ_self root)
  have hn : (getNodes s root).1 = dn := by
    simpa [getNodes] using h1
  have hedg : (getNodes s root).2 = de := by
    simpa [getNodes] using h2
  have hmem : ∀ x, x ∈ (getNodes s root).1 ↔ Reach s root x := by
    intro x
    constructor
    · intro hx
      rw [hn] at hx
      exact h4 x hx
    · intro hr
      induction hr with
      | refl => exact h5
      | step _ hc ihm =>
          rw [hn] at ihm
          exact (h6 _ ihm _ hc).1
  refine ⟨hmem, ?_, ?_⟩
  · exact h8 List.nodup_nil
  · intro e
    constructor
    · intro he
      rw [hedg] at he
      obtain ⟨hp, hm⟩ := h7 e he
      exact ⟨(hmem e.2).mp hm, hp⟩
    · rintro ⟨hr, hp⟩
      have hm2 : e.2 ∈ dn := by
        rw [← hn]
        exact (hmem e.2).mpr hr
      have hpair : (e.1, e.2) ∈ (getNodes s root).2 :=
        (h6 e.2 hm2 e.1 hp).2
      rw [hedg] at hpair
      rw [hedg]
      simpa using hpair

/-! ### Small-step helpers for evaluating concrete-shape graphs -/

theorem dfsN_skip (t : Store) (fuel v : Nat) (st : TState)
    (hf : 0 < fuel) (h : v ∈ st.1) : dfsN t fuel v st = st := by
  cases fuel with
  | zero => omega
  | succ f => simp [dfsN, h]

theorem dfsN_leaf (t : Store) (fuel v : Nat) (st : TState)
    (hf : 0 < fuel) (h : v ∉ st.1) (hp : (getN t v).prev = []) :
    dfsN t fuel v st = (st.1 ++ [v], st.2 ++ [v]) := by
  cases fuel with
  | zero => omega
  | succ f => simp [dfsN, h, hp]

theorem dfsN_two (t : Store) (fuel v a b : Nat) (st : TState)
    (hf : 0 < fuel) (h : v ∉ st.1) (hp : (getN t v).prev = [a, b]) :
    dfsN t fuel v st =
      ((dfsN t (fuel - 1) b (dfsN t (fuel - 1) a (st.1 ++ [v], st.2))).1,
       (dfsN t (fuel - 1) b
         (dfsN t (fuel - 1) a (st.1 ++ [v], st.2))).2 ++ [v]) := by
  cases fuel with
  | zero => omega
  | succ f => simp [dfsN, h, hp]

theorem walkL_cons (mpow : ℚ → ℚ → ℚ) (t : Store) (v : Nat)
    (r : List Nat) :
    walkL mpow t (v :: r) = walkL mpow (runNode mpow t v) r := rfl

theorem walkL_nil (mpow : ℚ → ℚ → ℚ) (t : Store) :
    walkL mpow t [] = t := rfl

theorem runNode_none (mpow : ℚ → ℚ → ℚ) (t : Store) (o : Nat)
    (hr : (getN t o).rule = Rule.none) : runNode mpow t o = t := by
  unfold runNode
  rw [hr]

theorem runNode_add (mpow : ℚ → ℚ → ℚ) (t : Store) (o a b : Nat)
    (hr : (getN t o).rule = Rule.add a b) :
    runNode mpow t o =
      addGrad (addGrad t a (1 * (getN t o).grad)) b
        (1 * (getN (addGrad t a (1 * (getN t o).grad)) o).grad) := by
  unfold runNode
  rw [hr]

theorem runNode_mul (mpow : ℚ → ℚ → ℚ) (t : Store) (o a b : Nat)
    (hr : (getN t o).rule = Rule.mul a b) :
    runNode mpow t o =
      addGrad (addGrad t a ((getN t b).data * (getN t o).grad)) b
        ((getN (addGrad t a ((getN t b).data * (getN t o).grad)) a).data *
          (getN (addGrad t a ((getN t b).data * (getN t o).grad)) o).grad)
    := by
  unfold runNode
  rw [hr]

theorem grad_addGrad_ne (s : Store) (i j : Nat) (d : ℚ) (h : j ≠ i) :
    (getN (addGrad s i d) j).grad = (getN s j).grad := by
  rw [getN_addGrad_ne s i j d h]

theorem grad_setGrad_ne (s : Store) (i j : Nat) (g : ℚ) (h : j ≠ i) :
    (getN (setGrad s i g) j).grad = (getN s j).grad := by
  rw [getN_setGrad_ne s i j g h]

theorem WF_append (s : Store) (n : Value)
    (hp : ∀ j ∈ n.prev, j < s.length)
    (hr : ∀ j ∈ ropsOf n.rule, j < s.length) (h : WF s) :
    WF (s ++ [n]) := by
  intro i hi
  simp only [List.length_append, List.length_singleton] at hi
  by_cases hlt : i < s.length
  · rw [getN_append_lt s [n] i hlt]
    exact ⟨fun j hj => (h i hlt).1 j hj, fun j hj => (h i hlt).2 j hj⟩
  · have : i = s.length := by omega
    subst this
    rw [getN_append_self]
    exact ⟨fun j hj => Nat.lt_of_lt_of_le (hp j hj) (Nat.le_refl _),
      fun j hj => hr j hj⟩

/-- `new Set([a, b])` for distinct references keeps both, in order. -/
theorem jsSet_pair (a b : Nat) (h : a ≠ b) : jsSet [a, b] = [a, b] := by
  simp [jsSet, List.foldl]
  intro hba
  exact absurd hba.symm h

/-- `new Set([a, a])` collapses the duplicate reference. -/
theorem jsSet_self (a : Nat) : jsSet [a, a] = [a] := by
  simp [jsSet, List.foldl]

theorem jsSet_single (a : Nat) : jsSet [a] = [a] := rfl

theorem walkL_none (mpow : ℚ → ℚ → ℚ) (t : Store) (l : List Nat)
    (h : ∀ v ∈ l, (getN t v).rule = Rule.none) : walkL mpow t l = t := by
  induction l with
  | nil => rfl
  | cons v r ih =>
      rw [walkL_cons, runNode_none mpow t v (h v (List.mem_cons_self ..))]
      exact ih fun w hw => h w (List.mem_cons_of_mem _ hw)

/-- The topological order of a root whose two operands are distinct
leaves. -/
theorem buildTopo_two_leaves (t : Store) (o a b : Nat)
    (hpo : (getN t o).prev = [a, b]) (hpa : (getN t a).prev = [])
    (hpb : (getN t b).prev = []) (hao : a < o) (hbo : b < o)
    (hab : a ≠ b) : buildTopo t o = [a, b, o] := by
  rw [buildTopo_concat, hpo]
  simp only [List.foldl_cons, List.foldl_nil]
  rw [dfsN_leaf t o a ([o], []) (by omega) (by simp; omega) hpa]
  rw [dfsN_leaf t o b ([o] ++ [a], [] ++ [a]) (by omega)
    (by simp; omega) hpb]
  simp

/-- Running the backward walk `[o, b, a]` on an add-root over two
rule-free distinct operands: each operand gains exactly `1`, the root
keeps its seeded `1`. -/
theorem walk_add_two (mpow : ℚ → ℚ → ℚ) (t : Store) (o a b : Nat)
    (hr : (getN t o).rule = Rule.add a b)
    (hra : (getN t a).rule = Rule.none)
    (hrb : (getN t b).rule = Rule.none)
    (hao : a ≠ o) (hbo : b ≠ o) (hab : a ≠ b)
    (hlo : o < t.length) (hla : a < t.length) (hlb : b < t.length) :
    (getN (walkL mpow (setGrad t o 1) [o, b, a]) a).grad =
      (getN t a).grad + 1 ∧
    (getN (walkL mpow (setGrad t o 1) [o, b, a]) b).grad =
      (getN t b).grad + 1 ∧
    (getN (walkL mpow (setGrad t o 1) [o, b, a]) o).grad = 1 := by
  have hr2 : (getN (setGrad t o 1) o).rule = Rule.add a b := by
    rw [(getN_setGrad_fields t o o 1).2.2.2.2, hr]
  have hrule3 : ∀ d1 d2 v, (getN (addGrad (addGrad (setGrad t o 1) a d1)
      b d2) v).rule = (getN t v).rule := by
    intro d1 d2 v
    rw [(getN_addGrad_fields _ b v d2).2.2.2.2,
      (getN_addGrad_fields _ a v d1).2.2.2.2,
      (getN_setGrad_fields t o v 1).2.2.2.2]
  have hwalk : walkL mpow (setGrad t o 1) [o, b, a] =
      addGrad (addGrad (setGrad t o 1) a (1 * (getN (setGrad t o 1) o).grad))
        b (1 * (getN (addGrad (setGrad t o 1) a
          (1 * (getN (setGrad t o 1) o).grad)) o).grad) := by
    rw [walkL_cons, runNode_add mpow _ o a b hr2]
    apply walkL_none
    intro v hv
    rcases List.mem_cons.mp hv with rfl | hv
    · rw [hrule3]
      exact hrb
    · simp at hv
      subst hv
      rw [hrule3]
      exact hra
  have hgo : (getN (setGrad t o 1) o).grad = 1 := grad_setGrad_self t o 1 hlo
  have hga : (getN (setGrad t o 1) a).grad = (getN t a).grad :=
    grad_setGrad_ne t o a 1 hao
  have hgb : (getN (setGrad t o 1) b).grad = (getN t b).grad :=
    grad_setGrad_ne t o b 1 hbo
  have hlen1 : a < (setGrad t o 1).length := by rw [length_setGrad]; omega
  have hlen2 : ∀ d1 : ℚ, b < (addGrad (setGrad t o 1) a d1).length := by
    intro d1
    rw [length_addGrad, length_setGrad]
    omega
  rw [hwalk]
  refine ⟨?_, ?_, ?_⟩
  · rw [grad_addGrad_ne _ b a _ hab, grad_addGrad_self _ a _ hlen1, hga,
      hgo]
    ring
  · rw [grad_addGrad_self _ b _ (hlen2 _), grad_addGrad_ne _ a b _ hab.symm,
      hgb, grad_addGrad_ne _ a o _ (Ne.symm hao), hgo]
    ring
  · rw [grad_addGrad_ne _ b o _ (Ne.symm hbo),
      grad_addGrad_ne _ a o _ (Ne.symm hao), hgo]

/-- A full `backward()` run on an add-root whose two operands are
distinct leaves: each operand's gradient grows by 1, the root's is the
seed 1, and no structural field changes anywhere. -/
theorem backward_add_two_leaves (mpow : ℚ → ℚ → ℚ) (t : Store)
    (o a b : Nat)
    (hpo : (getN t o).prev = [a, b]) (hro : (getN t o).rule = Rule.add a b)
    (hpa : (getN t a).prev = []) (hpb : (getN t b).prev = [])
    (hra : (getN t a).rule = Rule.none)
    (hrb : (getN t b).rule = Rule.none)
    (hao : a < o) (hbo : b < o) (hab : a ≠ b) (hlo : o < t.length) :
    (getN (backward mpow t o) a).grad = (getN t a).grad + 1 ∧
    (getN (backward mpow t o) b).grad = (getN t b).grad + 1 ∧
    (getN (backward mpow t o) o).grad = 1 ∧
    (backward mpow t o).length = t.length ∧
    ∀ v, (getN (backward mpow t o) v).prev = (getN t v).prev ∧
      (getN (backward mpow t o) v).rule = (getN t v).rule ∧
      (getN (backward mpow t o) v).data = (getN t v).data := by
  have hrev : backward mpow t o = walkL mpow (setGrad t o 1) [o, b, a] := by
    simp only [backward]
    rw [buildTopo_two_leaves t o a b hpo hpa hpb hao hbo hab]
    rfl
  have hw := walk_add_two mpow t o a b hro hra hrb (by omega) (by omega)
    hab hlo (by omega) (by omega)
  rw [hrev]
  refine ⟨hw.1, hw.2.1, hw.2.2, ?_, ?_⟩
  · rw [length_walkL, length_setGrad]
  · intro v
    have h1 := walkL_fields mpow (setGrad t o 1) [o, b, a] v
    have h2 := getN_setGrad_fields t o v 1
    exact ⟨by rw [h1.2.1, h2.2.1], by rw [h1.2.2.2.2, h2.2.2.2.2],
      by rw [h1.1, h2.1]⟩



/-- The new node allocated by `add` on two existing operands. -/
theorem add_val_eq (s : Store) (a b : Nat) :
    Value.add s a (JSArg.val b) = (s ++ [addNode s a b], s.length) := rfl



/-- C4 (amended): for distinct leaf operands with zero gradients, the
sum's data is the sum of the datas, and backward from the sum leaves
gradient 1 on each operand. -/
theorem C4_amended_thm (mpow : ℚ → ℚ → ℚ) (s : Store) (a b : Nat)
    (ha : a < s.length) (hb : b < s.length) (hab : a ≠ b)
    (hpa : (getN s a).prev = []) (hpb : (getN s b).prev = [])
    (hra : (getN s a).rule = Rule.none)
    (hrb : (getN s b).rule = Rule.none)
    (hga : (getN s a).grad = 0) (hgb : (getN s b).grad = 0) :
    (getN (Value.add s a (JSArg.val b)).1
      (Value.add s a (JSArg.val b)).2).data =
      (getN s a).data + (getN s b).data ∧
    (getN (backward mpow (Value.add s a (JSArg.val b)).1
      (Value.add s a (JSArg.val b)).2) a).grad = 1 ∧
    (getN (backward mpow (Value.add s a (JSArg.val b)).1
      (Value.add s a (JSArg.val b)).2) b).grad = 1 := by
  rw [add_val_eq s a b]
  have hto : getN (s ++ [addNode s a b]) s.length = addNode s a b :=
    getN_append_self s (addNode s a b)
  have hpo : (getN (s ++ [addNode s a b]) s.length).prev = [a, b] := by
    rw [hto]
    exact jsSet_pair a b hab
  have hro : (getN (s ++ [addNode s a b]) s.length).rule =
      Rule.add a b := by
    rw [hto]
    rfl
  have hlt := getN_append_lt s [addNode s a b]
  have hmain := backward_add_two_leaves mpow _ s.length a b hpo hro
    (by rw [hlt a ha]; exact hpa) (by rw [hlt b hb]; exact hpb)
    (by rw [hlt a ha]; exact hra) (by rw [hlt b hb]; exact hrb)
    ha hb hab (by simp)
  refine ⟨by rw [hto]; rfl, ?_, ?_⟩
  · rw [hmain.1, hlt a ha, hga]
    norm_num
  · rw [hmain.2.1, hlt b hb, hgb]
    norm_num

/-- C4 witness at a concrete two-leaf store. -/
theorem C4_witness :
    (getN (Value.add twoLeaves 0 (JSArg.val 1)).1
      (Value.add twoLeaves 0 (JSArg.val 1)).2).data =
      (getN twoLeaves 0).data + (getN twoLeaves 1).data ∧
    (getN (backward mpow0 (Value.add twoLeaves 0 (JSArg.val 1)).1
      (Value.add twoLeaves 0 (JSArg.val 1)).2) 0).grad = 1 ∧
    (getN (backward mpow0 (Value.add twoLeaves 0 (JSArg.val 1)).1
      (Value.add twoLeaves 0 (JSArg.val 1)).2) 1).grad = 1 :=
  C4_amended_thm mpow0 twoLeaves 0 1 (by decide) (by decide) (by decide)
    rfl rfl rfl rfl rfl rfl

/-- C4 counterexample: with the same node as both operands
(`a.add(a)`, as C10 describes), backward leaves gradient 2, not 1, on
the operand — refuting the unrestricted "for all nodes a and b". -/
theorem C4_counterexample :
    (getN (backward mpow0 (Value.add oneLeaf 0 (JSArg.val 0)).1
      (Value.add oneLeaf 0 (JSArg.val 0)).2) 0).grad = 2 ∧
    ¬ ((2 : ℚ) = 1) := by
  constructor
  · norm_num [oneLeaf, mpow0, Value.add, coerceArg, alloc, mkValue,
      jsSet, getN, updN, backward, buildTopo, dfsN, walkL, runNode,
      setGrad, addGrad]
  · norm_num

/-- C3 (amended): a second `backward()` without zeroing re-seeds the
root to 1 (so the root's gradient does not double) and accumulates on
top of the first pass, doubling the gradients of direct leaf operands
of the root. -/
theorem C3_amended_thm (mpow : ℚ → ℚ → ℚ) (s : Store) (a b : Nat)
    (ha : a < s.length) (hb : b < s.length) (hab : a ≠ b)
    (hpa : (getN s a).prev = []) (hpb : (getN s b).prev = [])
    (hra : (getN s a).rule = Rule.none)
    (hrb : (getN s b).rule = Rule.none)
    (hga : (getN s a).grad = 0) (hgb : (getN s b).grad = 0) :
    (getN (backward mpow (Value.add s a (JSArg.val b)).1
      (Value.add s a (JSArg.val b)).2) a).grad = 1 ∧
    (getN (backward mpow (backward mpow (Value.add s a (JSArg.val b)).1
        (Value.add s a (JSArg.val b)).2)
      (Value.add s a (JSArg.val b)).2) a).grad = 2 ∧
    (getN (backward mpow (backward mpow (Value.add s a (JSArg.val b)).1
        (Value.add s a (JSArg.val b)).2)
      (Value.add s a (JSArg.val b)).2) b).grad = 2 ∧
    (getN (backward mpow (backward mpow (Value.add s a (JSArg.val b)).1
        (Value.add s a (JSArg.val b)).2)
      (Value.add s a (JSArg.val b)).2)
      (Value.add s a (JSArg.val b)).2).grad = 1 := by
  rw [add_val_eq s a b]
  have hto : getN (s ++ [addNode s a b]) s.length = addNode s a b :=
    getN_append_self s (addNode s a b)
  have hpo : (getN (s ++ [addNode s a b]) s.length).prev = [a, b] := by
    rw [hto]
    exact jsSet_pair a b hab
  have hro : (getN (s ++ [addNode s a b]) s.length).rule =
      Rule.add a b := by
    rw [hto]
    rfl
  have hlt := getN_append_lt s [addNode s a b]
  have hmain := backward_add_two_leaves mpow _ s.length a b hpo hro
    (by rw [hlt a ha]; exact hpa) (by rw [hlt b hb]; exact hpb)
    (by rw [hlt a ha]; exact hra) (by rw [hlt b hb]; exact hrb)
    ha hb hab (by simp)
  obtain ⟨hm1, hm2, hm3, hm4, hm5⟩ := hmain
  have hmain2 := backward_add_two_leaves mpow _ s.length a b
    (by rw [(hm5 s.length).1]; exact hpo)
    (by rw [(hm5 s.length).2.1]; exact hro)
    (by rw [(hm5 a).1, hlt a ha]; exact hpa)
    (by rw [(hm5 b).1, hlt b hb]; exact hpb)
    (by rw [(hm5 a).2.1, hlt a ha]; exact hra)
    (by rw [(hm5 b).2.1, hlt b hb]; exact hrb)
    ha hb hab (by rw [hm4]; simp)
  refine ⟨?_, ?_, ?_, hmain2.2.2.1⟩
  · rw [hm1, hlt a ha, hga]
    norm_num
  · rw [hmain2.1, hm1, hlt a ha, hga]
    norm_num
  · rw [hmain2.2.1, hm2, hlt b hb, hgb]
    norm_num

/-- C3 amended-claim witness at a concrete two-leaf store. -/
theorem C3_witness :
    (getN (backward mpow0 (Value.add twoLeaves 0 (JSArg.val 1)).1
      (Value.add twoLeaves 0 (JSArg.val 1)).2) 0).grad = 1 ∧
    (getN (backward mpow0
        (backward mpow0 (Value.add twoLeaves 0 (JSArg.val 1)).1
          (Value.add twoLeaves 0 (JSArg.val 1)).2)
      (Value.add twoLeaves 0 (JSArg.val 1)).2) 0).grad = 2 ∧
    (getN (backward mpow0
        (backward mpow0 (Value.add twoLeaves 0 (JSArg.val 1)).1
          (Value.add twoLeaves 0 (JSArg.val 1)).2)
      (Value.add twoLeaves 0 (JSArg.val 1)).2) 1).grad = 2 ∧
    (getN (backward mpow0
        (backward mpow0 (Value.add twoLeaves 0 (JSArg.val 1)).1
          (Value.add twoLeaves 0 (JSArg.val 1)).2)
      (Value.add twoLeaves 0 (JSArg.val 1)).2)
      (Value.add twoLeaves 0 (JSArg.val 1)).2).grad = 1 :=
  C3_amended_thm mpow0 twoLeaves 0 1 (by decide) (by decide) (by decide)
    rfl rfl rfl rfl rfl rfl

/-- C3 counterexample: in the chain `z = (x + 3) + 5`, a second
backward pass without zeroing leaves `x` with gradient 3 (NOT twice its
single-pass gradient 1) and leaves the root at 1 (not 2). -/
theorem C3_counterexample :
    (getN (backward mpow0 chainStore 4) 0).grad = 1 ∧
    (getN (backward mpow0 (backward mpow0 chainStore 4) 4) 0).grad = 3 ∧
    ¬ ((3 : ℚ) = 2 * 1) ∧
    (getN (backward mpow0 (backward mpow0 chainStore 4) 4) 4).grad = 1 ∧
    ¬ ((1 : ℚ) = 2 * 1) := by
  refine ⟨?_, ?_, by norm_num, ?_, by norm_num⟩ <;>
    norm_num [chainStore, createValue, mpow0, Value.add, coerceArg,
      alloc, mkValue, jsSet, getN, updN, backward, buildTopo, dfsN,
      walkL, runNode, setGrad, addGrad]

/-- C10: `a.add(a)` stores a single collapsed operand reference (the JS
`Set` deduplicates), computes `2 * a.data`, and backward still
accumulates both closure contributions, leaving `a.grad = 2`. -/
theorem C10_thm (mpow : ℚ → ℚ → ℚ) (s : Store) (a : Nat) (hWF : WF s)
    (ha : a < s.length) (hg : (getN s a).grad = 0) :
    (getN (Value.add s a (JSArg.val a)).1
      (Value.add s a (JSArg.val a)).2).prev = [a] ∧
    (getN (Value.add s a (JSArg.val a)).1
      (Value.add s a (JSArg.val a)).2).data = 2 * (getN s a).data ∧
    (getN (backward mpow (Value.add s a (JSArg.val a)).1
      (Value.add s a (JSArg.val a)).2) a).grad = 2 := by
  rw [add_val_eq s a a]
  have hto : getN (s ++ [addNode s a a]) s.length = addNode s a a :=
    getN_append_self s (addNode s a a)
  have hlt := getN_append_lt s [addNode s a a]
  have hpo : (getN (s ++ [addNode s a a]) s.length).prev = [a] := by
    rw [hto]
    exact jsSet_self a
  have hro : (getN (s ++ [addNode s a a]) s.length).rule =
      Rule.add a a := by
    rw [hto]
    rfl
  have hWFt : WF (s ++ [addNode s a a]) := by
    refine WF_append s _ ?_ ?_ hWF
    · intro j hj
      simp [addNode, jsSet] at hj
      omega
    · intro j hj
      simp [addNode, ropsOf] at hj
      omega
  refine ⟨hpo, ?_, ?_⟩
  · rw [hto]
    show (getN s a).data + (getN s a).data = 2 * (getN s a).data
    ring
  · have htopo : buildTopo (s ++ [addNode s a a]) s.length =
        (dfsN (s ++ [addNode s a a]) s.length a ([s.length], [])).2 ++
          [s.length] := by
      rw [buildTopo_concat, hpo]
      rfl
    have hInv : TopoInv (s ++ [addNode s a a]) ([s.length], []) :=
      ⟨by simp, by simp, closed_nil _⟩
    have hBp : BoundP a ([s.length], []) := by
      intro x hx
      simp at hx
      subst hx
      exact Or.inr ha
    obtain ⟨dv, dt, he1, he2, hiff, hfr, hre, hmem⟩ :=
      (dfs_master _ (WF.prev_all hWFt) s.length a ([s.length], []) ha hInv
        hBp).1
    have hdt : (dfsN (s ++ [addNode s a a]) s.length a
        ([s.length], [])).2 = dt := by
      simpa using he2
    have hback : backward mpow (s ++ [addNode s a a]) s.length =
        walkL mpow (setGrad (s ++ [addNode s a a]) s.length 1)
          (s.length :: dt.reverse) := by
      simp only [backward]
      rw [htopo, hdt]
      simp
    rw [hback, walkL_cons]
    have hro2 : (getN (setGrad (s ++ [addNode s a a]) s.length 1)
        s.length).rule = Rule.add a a := by
      rw [(getN_setGrad_fields _ _ _ _).2.2.2.2, hro]
    rw [runNode_add mpow _ s.length a a hro2]
    have hne : a ≠ s.length := by omega
    rw [walkL_grad_notin]
    · rw [grad_addGrad_self _ a _ (by
        rw [length_addGrad, length_setGrad]
        simp
        omega)]
      rw [grad_addGrad_self _ a _ (by
        rw [length_setGrad]
        simp
        omega)]
      rw [grad_setGrad_ne _ _ _ _ hne, hlt a ha, hg]
      rw [grad_addGrad_ne _ a s.length _ (Ne.symm hne)]
      rw [grad_setGrad_self _ _ _ (by simp)]
      norm_num
    · intro v hv
      rw [List.mem_reverse] at hv
      have hvle : v ≤ a := reach_le (WF.prev_all hWFt) (hre v hv)
      have hrv : (getN (addGrad (addGrad
          (setGrad (s ++ [addNode s a a]) s.length 1) a
          (1 * (getN (setGrad (s ++ [addNode s a a]) s.length 1)
            s.length).grad)) a
          (1 * (getN (addGrad
            (setGrad (s ++ [addNode s a a]) s.length 1) a
            (1 * (getN (setGrad (s ++ [addNode s a a]) s.length 1)
              s.length).grad)) s.length).grad)) v).rule =
          (getN (s ++ [addNode s a a]) v).rule := by
        rw [(getN_addGrad_fields _ _ _ _).2.2.2.2,
          (getN_addGrad_fields _ _ _ _).2.2.2.2,
          (getN_setGrad_fields _ _ _ _).2.2.2.2]
      rw [hrv]
      intro hmem'
      have := WF.rops_all hWFt v a hmem'
      omega

/-- C10 witness at a concrete one-leaf store. -/
theorem C10_witness :
    (getN (Value.add oneLeaf 0 (JSArg.val 0)).1
      (Value.add oneLeaf 0 (JSArg.val 0)).2).prev = [0] ∧
    (getN (Value.add oneLeaf 0 (JSArg.val 0)).1
      (Value.add oneLeaf 0 (JSArg.val 0)).2).data =
      2 * (getN oneLeaf 0).data ∧
    (getN (backward mpow0 (Value.add oneLeaf 0 (JSArg.val 0)).1
      (Value.add oneLeaf 0 (JSArg.val 0)).2) 0).grad = 2 :=
  C10_thm mpow0 oneLeaf 0 (by decide) (by decide) rfl

/-- C2: `buildTopo` lists exactly the reachable subgraph, with every
node strictly after everything it transitively depends on (its
operands, per spec §4.2's definition), and `backward` walks that order
in reverse. -/
theorem C2_thm (s : Store) (root : Nat) (hWF : WF s) :
    (∀ x, x ∈ buildTopo s root ↔ Reach s root x) ∧
    (∀ l1 x l2, buildTopo s root = l1 ++ x :: l2 →
      ∀ u, Reach s x u → u ≠ x → u ∈ l1) ∧
    ∀ mpow : ℚ → ℚ → ℚ,
      backward mpow s root =
        walkL mpow (setGrad s root 1) (buildTopo s root).reverse := by
  obtain ⟨hcl, hnd, hroot, hsub, hsup⟩ :=
    buildTopo_spec s root (WF.prev_all hWF)
  refine ⟨fun x => ⟨hsub x, hsup x⟩, ?_, fun _ => rfl⟩
  intro l1 x l2 heq u hr hne
  exact closed_reach_before s _ hcl l1.length l1 x l2 (Nat.le_refl _) heq
    u hr hne

/-- C2 witness at the `Examples.complex` graph. -/
theorem C2_witness :
    (∀ x, x ∈ buildTopo exampleComplex 6 ↔ Reach exampleComplex 6 x) ∧
    (∀ l1 x l2, buildTopo exampleComplex 6 = l1 ++ x :: l2 →
      ∀ u, Reach exampleComplex x u → u ≠ x → u ∈ l1) ∧
    ∀ mpow : ℚ → ℚ → ℚ,
      backward mpow exampleComplex 6 =
        walkL mpow (setGrad exampleComplex 6 1)
          (buildTopo exampleComplex 6).reverse :=
  C2_thm exampleComplex 6 (by decide)

/-- C8: `getNodes` terminates with each reachable node listed exactly
once and each operand→consumer edge of the reachable subgraph listed;
it performs no writes (in this embedding it returns only the two lists
and the store is untouched by construction). -/
theorem C8_thm (s : Store) (root : Nat) (hWF : WF s) :
    (∀ x, x ∈ (getNodes s root).1 ↔ Reach s root x) ∧
    (getNodes s root).1.Nodup ∧
    ∀ e : Nat × Nat, e ∈ (getNodes s root).2 ↔
      Reach s root e.2 ∧ e.1 ∈ (getN s e.2).prev :=
  getNodes_spec s root (WF.prev_all hWF)

/-- C8 witness at the `Examples.complex` graph. -/
theorem C8_witness :
    (∀ x, x ∈ (getNodes exampleComplex 6).1 ↔ Reach exampleComplex 6 x) ∧
    (getNodes exampleComplex 6).1.Nodup ∧
    ∀ e : Nat × Nat, e ∈ (getNodes exampleComplex 6).2 ↔
      Reach exampleComplex 6 e.2 ∧ e.1 ∈ (getN exampleComplex e.2).prev :=
  C8_thm exampleComplex 6 (by decide)

/-- Folding `setGrad · 0` over a list zeroes exactly the listed nodes
and touches no other field of any node. -/
theorem zg_fold (L : List Nat) : ∀ s : Store,
    (∀ x ∈ L, (getN (L.foldl (fun t i => setGrad t i 0) s) x).grad = 0) ∧
    (∀ j, j ∉ L → getN (L.foldl (fun t i => setGrad t i 0) s) j =
      getN s j) ∧
    ∀ j, (getN (L.foldl (fun t i => setGrad t i 0) s) j).data =
        (getN s j).data ∧
      (getN (L.foldl (fun t i => setGrad t i 0) s) j).prev =
        (getN s j).prev ∧
      (getN (L.foldl (fun t i => setGrad t i 0) s) j).op =
        (getN s j).op ∧
      (getN (L.foldl (fun t i => setGrad t i 0) s) j).label =
        (getN s j).label ∧
      (getN (L.foldl (fun t i => setGrad t i 0) s) j).rule =
        (getN s j).rule := by
  induction L with
  | nil => exact fun s => ⟨by simp, fun j _ => rfl,
      fun j => ⟨rfl, rfl, rfl, rfl, rfl⟩⟩
  | cons i L' ih =>
      intro s
      simp only [List.foldl_cons]
      have hself : (getN (setGrad s i 0) i).grad = 0 := by
        by_cases h : i < s.length
        · exact grad_setGrad_self s i 0 h
        · rw [setGrad, updN_oob s i _ (by omega), getN_oob s i (by omega)]
          rfl
      refine ⟨?_, ?_, ?_⟩
      · intro x hx
        by_cases hx' : x ∈ L'
        · exact (ih (setGrad s i 0)).1 x hx'
        · have hxi : x = i := by
            rcases List.mem_cons.mp hx with h | h
            · exact h
            · exact absurd h hx'
          subst hxi
          rw [(ih (setGrad s x 0)).2.1 x hx']
          exact hself
      · intro j hj
        have hji : j ≠ i := fun h => hj (h ▸ List.mem_cons_self ..)
        have hjL : j ∉ L' := fun h => hj (List.mem_cons_of_mem _ h)
        rw [(ih (setGrad s i 0)).2.1 j hjL, getN_setGrad_ne s i j 0 hji]
      · intro j
        have h1 := (ih (setGrad s i 0)).2.2 j
        have h2 := getN_setGrad_fields s i j 0
        exact ⟨by rw [h1.1, h2.1], by rw [h1.2.1, h2.2.1],
          by rw [h1.2.2.1, h2.2.2.1], by rw [h1.2.2.2.1, h2.2.2.2.1],
          by rw [h1.2.2.2.2, h2.2.2.2.2]⟩

/-- C9: `zeroGrad` zeroes the gradient of every node reachable from the
root (and only those), changing no other field of any node. -/
theorem C9_thm (s : Store) (root : Nat) (hWF : WF s) :
    (∀ x, Reach s root x → (getN (zeroGrad s root) x).grad = 0) ∧
    (∀ j, ¬ Reach s root j → getN (zeroGrad s root) j = getN s j) ∧
    ∀ j, (getN (zeroGrad s root) j).data = (getN s j).data ∧
      (getN (zeroGrad s root) j).prev = (getN s j).prev ∧
      (getN (zeroGrad s root) j).op = (getN s j).op := by
  have hmem := (getNodes_spec s root (WF.prev_all hWF)).1
  have hf := zg_fold (getNodes s root).1 s
  refine ⟨?_, ?_, ?_⟩
  · intro x hx
    exact hf.1 x ((hmem x).mpr hx)
  · intro j hj
    exact hf.2.1 j fun hm => hj ((hmem j).mp hm)
  · intro j
    exact ⟨(hf.2.2 j).1, (hf.2.2 j).2.1, (hf.2.2 j).2.2.1⟩

/-- C9 witness at the `Examples.complex` graph. -/
theorem C9_witness :
    (∀ x, Reach exampleComplex 6 x →
      (getN (zeroGrad exampleComplex 6) x).grad = 0) ∧
    (∀ j, ¬ Reach exampleComplex 6 j →
      getN (zeroGrad exampleComplex 6) j = getN exampleComplex j) ∧
    ∀ j, (getN (zeroGrad exampleComplex 6) j).data =
        (getN exampleComplex j).data ∧
      (getN (zeroGrad exampleComplex 6) j).prev =
        (getN exampleComplex j).prev ∧
      (getN (zeroGrad exampleComplex 6) j).op =
        (getN exampleComplex j).op :=
  C9_thm exampleComplex 6 (by decide)

/-! ### Store-extension lemmas: every operation only appends -/

theorem ext_refl (s : Store) : ∃ w, s = s ++ w := ⟨[], by simp⟩

theorem ext_step {s t : Store} (n : Value) (h : ∃ w, t = s ++ w) :
    ∃ w, t ++ [n] = s ++ w := by
  obtain ⟨w, rfl⟩ := h
  exact ⟨w ++ [n], by rw [List.append_assoc]⟩

theorem ext_getN {s t : Store} (h : ∃ w, t = s ++ w) (j : Nat)
    (hj : j < s.length) : getN t j = getN s j := by
  obtain ⟨w, rfl⟩ := h
  exact getN_append_lt s w j hj

theorem coerce_ext (s : Store) (x : JSArg) :
    ∃ w, (coerceArg s x).1 = s ++ w := by
  cases x with
  | val k => exact ⟨[], by simp [coerceArg]⟩
  | num q => exact ⟨[mkValue q [] "" ""], rfl⟩

theorem add_ext (s : Store) (i : Nat) (x : JSArg) :
    ∃ w, (Value.add s i x).1 = s ++ w :=
  ext_step _ (coerce_ext s x)

theorem mul_ext (s : Store) (i : Nat) (x : JSArg) :
    ∃ w, (Value.mul s i x).1 = s ++ w :=
  ext_step _ (coerce_ext s x)

theorem powNum_ext (mpow : ℚ → ℚ → ℚ) (s : Store) (i : Nat) (p : ℚ) :
    ∃ w, (Value.powNum mpow s i p).1 = s ++ w :=
  ext_step _ (ext_refl s)

theorem relu_ext (s : Store) (i : Nat) :
    ∃ w, (Value.relu s i).1 = s ++ w :=
  ext_step _ (ext_refl s)

theorem tanh_ext (mexp : ℚ → ℚ) (s : Store) (i : Nat) :
    ∃ w, (Value.tanh mexp s i).1 = s ++ w :=
  ext_step _ (ext_refl s)

theorem exp_ext (mexp : ℚ → ℚ) (s : Store) (i : Nat) :
    ∃ w, (Value.exp mexp s i).1 = s ++ w :=
  ext_step _ (ext_refl s)

theorem neg_ext (s : Store) (i : Nat) :
    ∃ w, (Value.neg s i).1 = s ++ w :=
  mul_ext s i (JSArg.num (-1))

theorem ext_trans {s t u : Store} (h1 : ∃ w, t = s ++ w)
    (h2 : ∃ w, u = t ++ w) : ∃ w, u = s ++ w := by
  obtain ⟨w1, rfl⟩ := h1
  obtain ⟨w2, rfl⟩ := h2
  exact ⟨w1 ++ w2, by rw [List.append_assoc]⟩

theorem sub_ext (s : Store) (i : Nat) (x : JSArg) :
    ∃ w, (Value.sub s i x).1 = s ++ w :=
  ext_trans (coerce_ext s x)
    (ext_trans (neg_ext (coerceArg s x).1 (coerceArg s x).2)
      (ext_step _ (ext_refl _)))

theorem div_ext (mpow : ℚ → ℚ → ℚ) (s : Store) (i : Nat) (x : JSArg) :
    ∃ w, (Value.div mpow s i x).1 = s ++ w :=
  ext_trans (coerce_ext s x)
    (ext_trans
      (powNum_ext mpow (coerceArg s x).1 (coerceArg s x).2 (-1))
      (ext_step _ (ext_refl _)))

/-- C7: every operation (including the derived `neg`, `sub`, `div` and
the successful branch of `pow`) leaves every pre-existing node — data,
grad, `_prev`, `_op`, label — untouched: the output store extends the
input store, so every existing index dereferences identically. -/
theorem C7_thm (mpow : ℚ → ℚ → ℚ) (mexp : ℚ → ℚ) (s : Store) (i : Nat)
    (x : JSArg) (p : ℚ) (j : Nat) (hj : j < s.length) :
    getN (Value.add s i x).1 j = getN s j ∧
    getN (Value.mul s i x).1 j = getN s j ∧
    getN (Value.powNum mpow s i p).1 j = getN s j ∧
    (∀ st' k, Value.pow mpow s i x = Except.ok (st', k) →
      getN st' j = getN s j) ∧
    getN (Value.relu s i).1 j = getN s j ∧
    getN (Value.tanh mexp s i).1 j = getN s j ∧
    getN (Value.exp mexp s i).1 j = getN s j ∧
    getN (Value.neg s i).1 j = getN s j ∧
    getN (Value.sub s i x).1 j = getN s j ∧
    getN (Value.div mpow s i x).1 j = getN s j := by
  refine ⟨ext_getN (add_ext s i x) j hj, ext_getN (mul_ext s i x) j hj,
    ext_getN (powNum_ext mpow s i p) j hj, ?_,
    ext_getN (relu_ext s i) j hj, ext_getN (tanh_ext mexp s i) j hj,
    ext_getN (exp_ext mexp s i) j hj, ext_getN (neg_ext s i) j hj,
    ext_getN (sub_ext s i x) j hj, ext_getN (div_ext mpow s i x) j hj⟩
  intro st' k hok
  cases x with
  | val m => exact absurd hok (by simp [Value.pow])
  | num q =>
      have heq : Value.powNum mpow s i q = (st', k) := by
        simpa [Value.pow] using hok
      have h1 : (Value.powNum mpow s i q).1 = st' := by rw [heq]
      rw [← h1]
      exact ext_getN (powNum_ext mpow s i q) j hj

/-- C7 witness at a concrete store. -/
theorem C7_witness :
    getN (Value.add twoLeaves 0 (JSArg.val 1)).1 0 = getN twoLeaves 0 ∧
    getN (Value.mul twoLeaves 0 (JSArg.val 1)).1 0 = getN twoLeaves 0 ∧
    getN (Value.powNum mpow0 twoLeaves 0 2).1 0 = getN twoLeaves 0 ∧
    (∀ st' k, Value.pow mpow0 twoLeaves 0 (JSArg.val 1) =
      Except.ok (st', k) → getN st' 0 = getN twoLeaves 0) ∧
    getN (Value.relu twoLeaves 0).1 0 = getN twoLeaves 0 ∧
    getN (Value.tanh (fun _ => 0) twoLeaves 0).1 0 = getN twoLeaves 0 ∧
    getN (Value.exp (fun _ => 0) twoLeaves 0).1 0 = getN twoLeaves 0 ∧
    getN (Value.neg twoLeaves 0).1 0 = getN twoLeaves 0 ∧
    getN (Value.sub twoLeaves 0 (JSArg.val 1)).1 0 = getN twoLeaves 0 ∧
    getN (Value.div mpow0 twoLeaves 0 (JSArg.val 1)).1 0 =
      getN twoLeaves 0 :=
  C7_thm mpow0 (fun _ => 0) twoLeaves 0 (JSArg.val 1) 2 0 (by decide)

/-- C5: `pow` on a node-valued exponent fails with the
`UnsupportedExponent` error before anything is allocated (the result
carries no store, so existing nodes are untouched); on a numeric
exponent it succeeds, allocating one fresh node whose data is
`Math.pow(a.data, p)` while every existing node is unchanged. -/
theorem C5_thm (mpow : ℚ → ℚ → ℚ) (s : Store) (i : Nat) :
    (∀ k : Nat, Value.pow mpow s i (JSArg.val k) =
      Except.error Err.unsupportedExponent) ∧
    ∀ p : ℚ, Value.pow mpow s i (JSArg.num p) =
        Except.ok (Value.powNum mpow s i p) ∧
      (Value.powNum mpow s i p).2 = s.length ∧
      (getN (Value.powNum mpow s i p).1
        (Value.powNum mpow s i p).2).data = mpow (getN s i).data p ∧
      ∀ j, j < s.length →
        getN (Value.powNum mpow s i p).1 j = getN s j := by
  refine ⟨fun k => rfl, fun p => ⟨rfl, rfl, ?_, ?_⟩⟩
  · show (getN (s ++ [_]) s.length).data = _
    rw [getN_append_self]
  · intro j hj
    exact ext_getN (powNum_ext mpow s i p) j hj

/-- C5 witness at a concrete store. -/
theorem C5_witness :
    Value.pow mpow0 oneLeaf 0 (JSArg.val 0) =
      Except.error Err.unsupportedExponent ∧
    Value.pow mpow0 oneLeaf 0 (JSArg.num 2) =
      Except.ok (Value.powNum mpow0 oneLeaf 0 2) ∧
    (getN (Value.powNum mpow0 oneLeaf 0 2).1
      (Value.powNum mpow0 oneLeaf 0 2).2).data =
      mpow0 (getN oneLeaf 0).data 2 ∧
    getN (Value.powNum mpow0 oneLeaf 0 2).1 0 = getN oneLeaf 0 :=
  ⟨(C5_thm mpow0 oneLeaf 0).1 0, ((C5_thm mpow0 oneLeaf 0).2 2).1,
    ((C5_thm mpow0 oneLeaf 0).2 2).2.2.1,
    ((C5_thm mpow0 oneLeaf 0).2 2).2.2.2 0 (by decide)⟩

/-- C1: the `Examples.complex` scenario `L = (a*b + c) * f` with
`a=2, b=-3, c=10, f=-2`: forward value −8; after `L.backward()` the
root is seeded to 1 and `f.grad = 4`, `a.grad = 6`, `b.grad = -4`,
`c.grad = -2`. -/
theorem C1_thm : ∀ mpow : ℚ → ℚ → ℚ,
    (getN exampleComplex 6).data = -8 ∧
    (getN (backward mpow exampleComplex 6) 6).grad = 1 ∧
    (getN (backward mpow exampleComplex 6) 3).grad = 4 ∧
    (getN (backward mpow exampleComplex 6) 0).grad = 6 ∧
    (getN (backward mpow exampleComplex 6) 1).grad = -4 ∧
    (getN (backward mpow exampleComplex 6) 2).grad = -2 := by
  intro mpow
  refine ⟨?_, ?_, ?_, ?_, ?_, ?_⟩ <;>
    norm_num [exampleComplex, createValue, setLabel, Value.mul,
      Value.add, coerceArg, alloc, mkValue, jsSet, getN, updN, backward,
      buildTopo, dfsN, walkL, runNode, setGrad, addGrad]

set_option maxHeartbeats 3200000 in
/-- C6: a leaf `x` feeding two different mul consumers `x*p` and `x*q`
that are summed into the root accumulates both path-local gradients:
`x.grad = p.data + q.data` (for arbitrary data, so neither contribution
overwrites the other). -/
theorem C6_thm : ∀ (mpow : ℚ → ℚ → ℚ) (dx dp dq : ℚ),
    (getN (backward mpow
      (Value.add
        (Value.mul
          (Value.mul [mkValue dx [] "" "", mkValue dp [] "" "",
            mkValue dq [] "" ""] 0 (JSArg.val 1)).1
          0 (JSArg.val 2)).1
        3 (JSArg.val 4)).1
      (Value.add
        (Value.mul
          (Value.mul [mkValue dx [] "" "", mkValue dp [] "" "",
            mkValue dq [] "" ""] 0 (JSArg.val 1)).1
          0 (JSArg.val 2)).1
        3 (JSArg.val 4)).2) 0).grad = dp + dq := by
  intro mpow dx dp dq
  norm_num [Value.mul, Value.add, coerceArg, alloc, mkValue, jsSet,
    getN, updN, backward, buildTopo, dfsN, walkL, runNode, setGrad,
    addGrad]
  ring